import Mathlib

/-!
# A shallow embedding of the `uasat` core in Lean 4

This file embeds the core data structures and algorithms of the `uasat`
repository (generic vectors, the shape/stride engine, tensors, and the
binary-arithmetic layer over the concrete Boolean backend) and proves the
specification claims about them.

Conventions of the embedding:
* Rust `Vec<T>`, `BitVec` and the generic-vector containers are modeled as
  `List`; machine integers (`usize`, `i64`) are modeled as `Nat` / `Int`.
* In the generic-vector section a panic (out-of-bounds index, violated
  `assert!`) is modeled as `Except.error`, while a genuine Rust
  `Option` return value is modeled as `Option` — the two are kept distinct
  on purpose, because one claim is about exactly this distinction.
* In the tensor section an `assert!` failure is modeled as `Option.none`;
  operations whose claims only concern in-contract behavior carry the
  assert conditions as theorem hypotheses instead.
* The source's `i64` arithmetic shift `elem >> i` is floor division by
  `2 ^ i` (`Int.fdiv`), and `x & 1 != 0` is `x.emod 2 ≠ 0`.
-/

namespace Uasat

/-! ## Generic vector storage (`src/core/genvec.rs`)

The dense (`Wrapper<Vec<ELEM>>`) and bit-packed (`Wrapper<BitVec>`) backings
are both lists with checked index access: `self.0[index]` on `Vec` and
`self.0.get(index).unwrap()` / `BitVec::set` on `BitVec` all panic when
`index >= len`.  The unit backing (`UnitVec`) stores only a length. -/

namespace Genvec

/-- `GenVector::get` for the dense and bit-packed backings: returns the
element at `index`, panicking (`Except.error`) when `index >= len`. -/
def get {α : Type} (v : List α) (index : Nat) : Except String α :=
  match v.get? index with
  | some a => Except.ok a
  | none => Except.error "index out of bounds"

/-- `GenVector::set` for the dense and bit-packed backings: replaces the
element at `index`, panicking (`Except.error`) when `index >= len`. -/
def set {α : Type} (v : List α) (index : Nat) (elem : α) : Except String (List α) :=
  if index < v.length then Except.ok (v.set index elem)
  else Except.error "index out of bounds"

/-- `GenVector::pop`: removes the last element and returns it, or returns
`None` if the vector is empty.  This is a total operation in the source —
its return type is `Option<ELEM>` — so it is modeled as a total Lean
function into `Option`. -/
def pop {α : Type} : List α → Option (α × List α)
  | [] => none
  | [a] => some (a, [])
  | a :: b :: rest =>
    (pop (b :: rest)).map (fun p => (p.1, a :: p.2))

/-- `GenVector::concat`: concatenates the parts in order by repeatedly
extending an (initially empty) result vector. -/
def concat {α : Type} (parts : List (List α)) : List α :=
  parts.foldl (fun result p => result ++ p) []

/-- The chunk-collecting loop of `GenVector::split`: `count` times, take the
next `len` elements off the iterator into a fresh chunk.  `split` only
invokes it with `count * len ≤ length`, so the source's `unwrap` on the
iterator never fails there. -/
def chunks {α : Type} : Nat → Nat → List α → List (List α)
  | 0, _, _ => []
  | count + 1, len, v => v.take len :: chunks count len (v.drop len)

/-- `GenVector::split` (default implementation): an empty vector yields zero
chunks; otherwise `len == 0` is an `assert_ne!` violation (panic), and the
vector is cut into `length / len` consecutive chunks of size `len`. -/
def split {α : Type} (v : List α) (len : Nat) : Except String (List (List α)) :=
  if v.length = 0 then Except.ok []
  else if len = 0 then Except.error "assertion violated: len != 0"
  else Except.ok (chunks (v.length / len) len v)

/-- `UnitVec::pop`: returns `Some(())` and decrements the length when
non-empty, `None` otherwise (total, like the dense `pop`). -/
def unitPop (len : Nat) : Option (Unit × Nat) :=
  if 0 < len then some ((), len - 1) else none

/-- `UnitVec::get`: the bound `index < len` is checked only by a
`debug_assert!`, which is compiled out in release builds, so the function
unconditionally returns the unit value. -/
def unitGet (_len _index : Nat) : Unit := ()

/-- `UnitVec::set`: like `unitGet`, only a `debug_assert!` guards the index;
the length (the whole state of a `UnitVec`) is returned unchanged. -/
def unitSet (len _index : Nat) (_elem : Unit) : Nat := len

end Genvec

/-! ## The concrete Boolean backend

`boolean.rs` is not part of the provided sources; only its callers are.
The gate set of the concrete backend is modeled from the spec. -/

/-- Modelled from the spec: the concrete `Boolean` backend (its file,
`boolean.rs`, is not under `src/`) evaluates `bool_lift` immediately on
plain booleans — lifting a constant is the identity. -/
def bool_lift (b : Bool) : Bool := b

/-- Modelled from the spec: the concrete backend's `bool_unit` (the
constant true element). -/
def bool_unit : Bool := true

/-- Modelled from the spec: the concrete backend's `bool_zero` (the
constant false element). -/
def bool_zero : Bool := false

/-- Modelled from the spec: the concrete backend's `bool_not` gate. -/
def bool_not (a : Bool) : Bool := !a

/-- Modelled from the spec: the concrete backend's `bool_or` gate. -/
def bool_or (a b : Bool) : Bool := a || b

/-- Modelled from the spec: the concrete backend's `bool_and` gate. -/
def bool_and (a b : Bool) : Bool := a && b

/-- Modelled from the spec: the concrete backend's `bool_xor` gate. -/
def bool_xor (a b : Bool) : Bool := xor a b

/-- Modelled from the spec: the concrete backend's `bool_equ`
(logical-equivalence) gate. -/
def bool_equ (a b : Bool) : Bool := a == b

/-- Modelled from the spec: the concrete backend's `bool_imp`
(implication) gate. -/
def bool_imp (a b : Bool) : Bool := !a || b

/-- Modelled from the spec: the concrete backend's `bool_maj`
(majority-of-three) gate. -/
def bool_maj (a b c : Bool) : Bool := a && b || a && c || b && c

/-- Modelled from the spec: the concrete backend's `bool_sum3`
(3-input XOR) gate. -/
def bool_sum3 (a b c : Bool) : Bool := xor (xor a b) c

/-! ## Binary arithmetic (`src/old/binary.rs`) over the concrete backend

Bit vectors are `List Bool`, least-significant bit first, exactly as the
generic `BinaryAlg` implementation computes them when instantiated with the
concrete `Boolean` algebra. -/

/-- `bit_all`: conjunction of all elements, folded from `bool_unit`,
returned as a one-element vector. -/
def bit_all (elem : List Bool) : List Bool :=
  [elem.foldl (fun result a => bool_and result a) bool_unit]

/-- `bit_any`: disjunction of all elements, folded from `bool_zero`,
returned as a one-element vector. -/
def bit_any (elem : List Bool) : List Bool :=
  [elem.foldl (fun result a => bool_or result a) bool_zero]

/-- `bit_not`: element-wise negation. -/
def bit_not (elem : List Bool) : List Bool :=
  elem.map bool_not

/-- `num_lift(len, elem)`: bit `i` of the result is `(elem >> i) & 1 != 0`,
i.e. whether the arithmetic right shift of `elem` by `i` is odd.  The `i64`
of the source is modeled as an unbounded `Int`; `>> i` is floor division by
`2 ^ i` and `& 1` is the non-negative remainder mod 2. -/
def num_lift (len : Nat) (elem : Int) : List Bool :=
  (List.range len).map (fun i => bool_lift (decide (elem.fdiv (2 ^ i) % 2 ≠ 0)))

/-- The ripple-carry loop of `num_add`: the output bit is
`bool_sum3 a b carry` and the next carry is `bool_maj a b carry`. -/
def addChain (carry : Bool) : List (Bool × Bool) → List Bool
  | [] => []
  | (a, b) :: rest => bool_sum3 a b carry :: addChain (bool_maj a b carry) rest

/-- `num_add`: ripple-carry addition over the zipped operand bits with
initial carry `bool_zero`.  (The source asserts equal operand lengths; the
zip makes the model total.) -/
def num_add (elem1 elem2 : List Bool) : List Bool :=
  addChain bool_zero (elem1.zip elem2)

/-- The loop of the overridden `num_sub`: each bit of the second operand is
negated before entering the full adder, and the carry starts at
`bool_unit`. -/
def subChain (carry : Bool) : List (Bool × Bool) → List Bool
  | [] => []
  | (a, b) :: rest =>
    bool_sum3 a (bool_not b) carry ::
      subChain (bool_maj a (bool_not b) carry) rest

/-- The overridden `num_sub` of the `BinaryAlg` implementation. -/
def num_sub (elem1 elem2 : List Bool) : List Bool :=
  subChain bool_unit (elem1.zip elem2)

/-- The loop of the overridden (inline) `num_neg`: bitwise negation with a
carry seeded to `bool_unit`; output bit `xor (not a) carry`, next carry
`and (not a) carry`. -/
def negChain (carry : Bool) : List Bool → List Bool
  | [] => []
  | a :: rest =>
    bool_xor (bool_not a) carry :: negChain (bool_and (bool_not a) carry) rest

/-- The overridden (inline) `num_neg` of the `BinaryAlg` implementation. -/
def num_neg (elem : List Bool) : List Bool :=
  negChain bool_unit elem

/-- `num_eq`: AND-fold (from `bool_unit`) of the per-bit equivalences,
returned as a one-element vector. -/
def num_eq (elem1 elem2 : List Bool) : List Bool :=
  [(elem1.zip elem2).foldl
    (fun result p => bool_and result (bool_equ p.1 p.2)) bool_unit]

/-- `num_ne`: `num_eq` with its single element negated in place. -/
def num_ne (elem1 elem2 : List Bool) : List Bool :=
  let elem := num_eq elem1 elem2
  elem.set 0 (bool_not (elem.getD 0 false))

/-- `num_le` (unsigned, per its doc comment): folds the majority-gate
recurrence `result := maj(not a, b, result)` over the zipped bits from the
least-significant end, starting from `bool_unit`. -/
def num_le (elem1 elem2 : List Bool) : List Bool :=
  [(elem1.zip elem2).foldl
    (fun result p => bool_maj (bool_not p.1) p.2 result) bool_unit]

/-- `num_lt`: `num_le` with swapped operands and the single element negated
in place. -/
def num_lt (elem1 elem2 : List Bool) : List Bool :=
  let elem := num_le elem2 elem1
  elem.set 0 (bool_not (elem.getD 0 false))

/-- The two's-complement value represented by a bit vector (least
significant bit first, the final bit carrying negative weight).  Used only
to state what the spec calls "the represented two's-complement value". -/
def twosComplement : List Bool → Int
  | [] => 0
  | [b] => if b then -1 else 0
  | b :: c :: rest => (if b then 1 else 0) + 2 * twosComplement (c :: rest)

/-- The unsigned value of a bit vector, least significant bit first. -/
def bitsToNat : List Bool → Nat
  | [] => 0
  | b :: rest => b.toNat + 2 * bitsToNat rest

/-! ## Shape and stride engine (`src/tensor.rs`)

A `Shape` is its `dims: Vec<usize>`, modeled as `List Nat`. -/

namespace Shape

/-- `Shape::size`: the running product of the dimensions
(`size = 1; for dim { size *= dim }`). -/
def size (dims : List Nat) : Nat :=
  dims.foldl (fun s d => s * d) 1

/-- The accumulator loop of `Shape::index` over the zipped
`(coord, dim)` pairs: `index += coord * size; size *= dim`. -/
def indexAux : List (Nat × Nat) → Nat → Nat → Nat
  | [], index, _ => index
  | (coord, dim) :: rest, index, sz => indexAux rest (index + coord * sz) (sz * dim)

/-- `Shape::index`: the row-major linear index of a coordinate tuple.  The
source asserts `coords.len() == len` and `coord < dim` per entry; claims
about it carry those conditions as hypotheses. -/
def index (dims coords : List Nat) : Nat :=
  indexAux (coords.zip dims) 0 1

/-- The accumulator loop of `Shape::strides`: each dimension's stride is
the product of the dimensions before it. -/
def stridesAux (sz : Nat) : List Nat → List Nat
  | [] => []
  | d :: ds => sz :: stridesAux (sz * d) ds

/-- `Shape::strides`: per-dimension linear-index multipliers, computed with
a running product starting from 1. -/
def strides (dims : List Nat) : List Nat :=
  stridesAux 1 dims

end Shape

/-! ### The stride iterator -/

/-- `StrideIter`: one `(counter, dim, stride)` entry per target dimension,
the accumulated source linear index, and the exhaustion flag. -/
structure StrideIter where
  entries : List (Nat × Nat × Nat)
  index : Nat
  done : Bool
deriving Repr, DecidableEq

/-- `StrideIter::new`: every entry starts as `(0, dim, 0)`; `done` is
seeded true when any dimension is zero. -/
def StrideIter.new (shape : List Nat) : StrideIter :=
  { entries := shape.map (fun d => (0, d, 0)),
    index := 0,
    done := shape.any (fun d => d == 0) }

/-- In-place update of the element at one position of a list
(`entries[idx] = f(entries[idx])`); the identity out of bounds. -/
def modifyAt {α : Type} (f : α → α) : Nat → List α → List α
  | _, [] => []
  | 0, a :: rest => f a :: rest
  | n + 1, a :: rest => a :: modifyAt f n rest

/-- `StrideIter::add_stride`: adds `stride` to the stride component of the
entry at position `idx`. -/
def StrideIter.add_stride (it : StrideIter) (idx stride : Nat) : StrideIter :=
  { it with
    entries := modifyAt (fun e => (e.1, e.2.1, e.2.2 + stride)) idx it.entries }

/-- The entry loop of `StrideIter::next`: walk the entries (least
significant first), add each visited entry's stride to the index and bump
its counter; a counter that reaches its dimension is reset (and its full
contribution subtracted from the index) and the walk carries on to the next
entry; otherwise the walk stops.  Returns the updated entries, the updated
index, and whether every entry carried (the Rust loop running off the end,
which sets `done`). -/
def stepEntries : List (Nat × Nat × Nat) → Nat → List (Nat × Nat × Nat) × Nat × Bool
  | [], index => ([], index, true)
  | (c, d, s) :: rest, index =>
    if c + 1 ≥ d then
      let out := stepEntries rest (index + s - (c + 1) * s)
      ((0, d, s) :: out.1, out.2.1, out.2.2)
    else
      ((c + 1, d, s) :: rest, index + s, false)

/-- `StrideIter::next`: emits the current index and advances the odometer;
returns `none` once `done`. -/
def StrideIter.next (it : StrideIter) : Option (Nat × StrideIter) :=
  if it.done then none
  else
    let out := stepEntries it.entries it.index
    some (it.index, { entries := out.1, index := out.2.1, done := out.2.2 })

/-- Runs the iterator, collecting at most `fuel` yielded values (the Rust
`collect()` runs until `next()` returns `None`; the fuel only bounds the
recursion and is always chosen at least as large as the proven yield
count, so the collected list is the full output). -/
def StrideIter.run : Nat → StrideIter → List Nat
  | 0, _ => []
  | fuel + 1, it =>
    match it.next with
    | none => []
    | some (x, it2) => x :: StrideIter.run fuel it2

/-- The mixed-radix digits of `k` with respect to the dimension list
(least significant dimension first). -/
def digitsOf : List Nat → Nat → List Nat
  | [], _ => []
  | d :: ds, k => k % d :: digitsOf ds (k / d)

/-- Dot product of two lists (truncating at the shorter one). -/
def dotProd : List Nat → List Nat → Nat
  | c :: cs, s :: ss => c * s + dotProd cs ss
  | _, _ => 0

/-- The odometer state of a stride iterator whose counters hold the
mixed-radix digits of `k`: entry `i` is `(digit i of k, dims[i], ss[i])`. -/
def entriesOf : List Nat → List Nat → Nat → List (Nat × Nat × Nat)
  | d :: ds, s :: ss, k => (k % d, d, s) :: entriesOf ds ss (k / d)
  | _, _, _ => []

/-- The accumulated index of the odometer state `entriesOf dims ss k`:
the dot product of the digits of `k` with the strides `ss`. -/
def digitDot : List Nat → List Nat → Nat → Nat
  | d :: ds, s :: ss, k => k % d * s + digitDot ds ss (k / d)
  | _, _, _ => 0

/-- The stride vector accumulated by `polymer`'s `add_stride` calls: start
from all zeros (the `StrideIter::new` entries) and, for each
`(target, stride)` pair, add `stride` to position `target`. -/
def accStrides (n : Nat) (ps : List (Nat × Nat)) : List Nat :=
  ps.foldl (fun ss p => modifyAt (fun s => s + p.2) p.1 ss) (List.replicate n 0)

/-- The value of a list of `(coord, dim)` pairs in mixed radix, least
significant first — the recursion-friendly form of `Shape::index`. -/
def coordVal : List (Nat × Nat) → Nat
  | [] => 0
  | (c, d) :: rest => c + d * coordVal rest

/-- The total stride contribution `Σ coords[target] * stride` of a list of
`(target, stride)` pairs, reading coordinates from `coords`. -/
def sumTerms (coords : List Nat) : List (Nat × Nat) → Nat
  | [] => 0
  | (j, s) :: rest => coords.getD j 0 * s + sumTerms coords rest

/-- The final carry of the `num_add` ripple chain (used to state the exact,
non-truncated arithmetic meaning of the chain). -/
def addCarry (carry : Bool) : List (Bool × Bool) → Bool
  | [] => carry
  | (a, b) :: rest => addCarry (bool_maj a b carry) rest

/-! ## Tensors (`src/tensor.rs`) -/

/-- A multidimensional array: a shape and the flat element vector. -/
structure Tensor (α : Type) where
  shape : List Nat
  elems : List α
deriving Repr, DecidableEq

/-- The `Tensor` data invariant: the element vector length equals the
shape's size (`assert_eq!(shape.size(), elems.len())` in `Tensor::new`). -/
def Tensor.Inv {α : Type} (t : Tensor α) : Prop :=
  t.elems.length = Shape.size t.shape

/-- `Tensor::constant`: a tensor of the given shape with every slot filled
with `elem` (`with_capacity` + `resize`). -/
def Tensor.constant {α : Type} (shape : List Nat) (elem : α) : Tensor α :=
  { shape := shape, elems := List.replicate (Shape.size shape) elem }

/-- `Tensor::very_slow_get`: the element at the row-major index of
`coords`.  The source's `elems.get` panics out of bounds; under the
invariant and valid coordinates the index is in bounds, and the model
returns `default` outside. -/
def Tensor.very_slow_get {α : Type} [Inhabited α] (t : Tensor α)
    (coords : List Nat) : α :=
  t.elems.getD (Shape.index t.shape coords) default

/-- `Tensor::polymer`: build a stride iterator over the target shape, add
each source dimension's stride onto its mapped target entry, and read the
source elements in the order the iterator emits.  The source asserts
`mapping.len() == self.shape.len()` and `self.shape[i] == shape[mapping[i]]`;
claims carry these as hypotheses.  The fuel `Shape.size shape` is exact:
the iterator is proven to yield precisely that many values. -/
def Tensor.polymer {α : Type} [Inhabited α] (t : Tensor α)
    (shape : List Nat) (mapping : List Nat) : Tensor α :=
  let it0 := StrideIter.new shape
  let it := (mapping.zip (Shape.strides t.shape)).foldl
    (fun it p => it.add_stride p.1 p.2) it0
  { shape := shape,
    elems := (StrideIter.run (Shape.size shape) it).map
      (fun i => t.elems.getD i default) }

/-- `Tensor::reshape_join`: the first `count` dimensions are replaced by
their product; the elements are untouched. -/
def Tensor.reshape_join {α : Type} (t : Tensor α) (count : Nat) : Tensor α :=
  { shape := Shape.size (t.shape.take count) :: t.shape.drop count,
    elems := t.elems }

/-- `TensorAlg::scalar`: a rank-zero tensor holding the lifted constant.
The backend's `bool_lift` is the parameter `lift`. -/
def scalar {α : Type} (lift : Bool → α) (elem : Bool) : Tensor α :=
  Tensor.constant [] (lift elem)

/-- `TensorAlg::diagonal`: a `dim × dim` tensor of `zero`s whose diagonal
positions `idx * (dim + 1)` are set to `unit`. -/
def diagonal {α : Type} (zero unit : α) (dim : Nat) : Tensor α :=
  let t := Tensor.constant [dim, dim] zero
  { t with
    elems := (List.range dim).foldl
      (fun es idx => es.set (idx * (dim + 1)) unit) t.elems }

/-- `TensorAlg::tensor_not`: maps the backend's negation gate `g` over the
elements. -/
def tensor_not {α : Type} (g : α → α) (t : Tensor α) : Tensor α :=
  { shape := t.shape, elems := t.elems.map g }

/-- `TensorAlg::tensor_or` (and structurally `tensor_and` / `tensor_xor` /
`tensor_equ` / `tensor_imp`): asserts equal shapes, then zips the element
vectors through the backend's binary gate `g`. -/
def tensor_or {α : Type} (g : α → α → α) (t1 t2 : Tensor α) :
    Option (Tensor α) :=
  if t1.shape = t2.shape then
    some { shape := t1.shape, elems := List.zipWith g t1.elems t2.elems }
  else none

/-- `TensorAlg::tensor_and`: same structure as `tensor_or` with the
backend's conjunction gate. -/
def tensor_and {α : Type} (g : α → α → α) (t1 t2 : Tensor α) :
    Option (Tensor α) :=
  if t1.shape = t2.shape then
    some { shape := t1.shape, elems := List.zipWith g t1.elems t2.elems }
  else none

/-- `TensorAlg::tensor_xor`: same structure as `tensor_or`. -/
def tensor_xor {α : Type} (g : α → α → α) (t1 t2 : Tensor α) :
    Option (Tensor α) :=
  if t1.shape = t2.shape then
    some { shape := t1.shape, elems := List.zipWith g t1.elems t2.elems }
  else none

/-- `TensorAlg::tensor_equ`: same structure as `tensor_or`. -/
def tensor_equ {α : Type} (g : α → α → α) (t1 t2 : Tensor α) :
    Option (Tensor α) :=
  if t1.shape = t2.shape then
    some { shape := t1.shape, elems := List.zipWith g t1.elems t2.elems }
  else none

/-- `TensorAlg::tensor_imp`: same structure as `tensor_or`. -/
def tensor_imp {α : Type} (g : α → α → α) (t1 t2 : Tensor α) :
    Option (Tensor α) :=
  if t1.shape = t2.shape then
    some { shape := t1.shape, elems := List.zipWith g t1.elems t2.elems }
  else none

/-- `TensorAlg::tensor_all` (and structurally `tensor_any` / `tensor_sum`):
`Shape::split` asserts a non-empty shape (modeled as `none`); the result
drops the head dimension and folds each length-`head` slice
`elems.range(i * head, i * head + head)` through the backend fold `g`. -/
def tensor_all {α : Type} (g : List α → α) (t : Tensor α) :
    Option (Tensor α) :=
  match t.shape with
  | [] => none
  | head :: tail =>
    some { shape := tail,
           elems := (List.range (Shape.size tail)).map
             (fun i => g ((t.elems.drop (i * head)).take head)) }

/-- `TensorAlg::tensor_any`: same structure as `tensor_all`. -/
def tensor_any {α : Type} (g : List α → α) (t : Tensor α) :
    Option (Tensor α) :=
  match t.shape with
  | [] => none
  | head :: tail =>
    some { shape := tail,
           elems := (List.range (Shape.size tail)).map
             (fun i => g ((t.elems.drop (i * head)).take head)) }

/-- `TensorAlg::tensor_sum`: same structure as `tensor_all`. -/
def tensor_sum {α : Type} (g : List α → α) (t : Tensor α) :
    Option (Tensor α) :=
  match t.shape with
  | [] => none
  | head :: tail =>
    some { shape := tail,
           elems := (List.range (Shape.size tail)).map
             (fun i => g ((t.elems.drop (i * head)).take head)) }

/-- `TensorSat::tensor_add_variable`: `shape.size()` calls to
`bool_add_variable`.  The symbolic backend's variable allocator is modeled
as a counter: each call returns the next literal.  The result pairs the
tensor with the advanced counter. -/
def tensor_add_variable (shape : List Nat) (fresh : Nat) : Tensor Nat × Nat :=
  ({ shape := shape,
     elems := (List.range (Shape.size shape)).map (fun i => fresh + i) },
   fresh + Shape.size shape)

/-- `TensorSat::tensor_get_value`: maps the backend's `bool_get_value`
(abstracted as `v`) over the elements. -/
def tensor_get_value {α : Type} (v : α → Bool) (t : Tensor α) : Tensor Bool :=
  { shape := t.shape, elems := t.elems.map v }

/-- `BoolSat::bool_add_clause`: appends one disjunctive clause to the
solver's clause list (the symbolic backend's accumulated state). -/
def bool_add_clause {α : Type} (st : List (List α)) (clause : List α) :
    List (List α) :=
  st ++ [clause]

/-- `TensorSat::tensor_add_clause`: with no tensors, submit a single empty
clause; otherwise assert all shapes equal (`none` on violation), submit
nothing when the common shape has size 0, and otherwise submit one clause
per linear position `i`, holding each tensor's element at `i` in the order
the tensors were given.  (The source materializes the position-0 clause and
then overwrites the same buffer for `i = 1..size`; each submitted clause is
exactly the per-position map below.) -/
def tensor_add_clause {α : Type} [Inhabited α] (st : List (List α))
    (tensors : List (Tensor α)) : Option (List (List α)) :=
  match tensors with
  | [] => some (bool_add_clause st [])
  | t0 :: rest =>
    if rest.all (fun t => t.shape == t0.shape) then
      if Shape.size t0.shape = 0 then some st
      else
        some ((List.range (Shape.size t0.shape)).foldl
          (fun st2 i =>
            bool_add_clause st2 ((t0 :: rest).map (fun t => t.elems.getD i default)))
          st)
    else none

/-- The tensor of the `polymer` unit test and of the claimed instance:
shape `[2, 3]` with `t[i, j] = i + 10 * j` (row-major, first dimension
fastest: linear index `i + 2 * j`). -/
def testTensor : Tensor Nat :=
  { shape := [2, 3], elems := [0, 1, 10, 11, 20, 21] }

/-! ## Lemmas: generic vectors -/

lemma concat_foldl_acc {α : Type} (ps : List (List α)) :
    ∀ acc : List α, ps.foldl (fun result p => result ++ p) acc =
      acc ++ ps.foldl (fun result p => result ++ p) [] := by
  induction ps with
  | nil => intro acc; simp
  | cons p ps ih =>
    intro acc
    simp only [List.foldl_cons]
    rw [ih (acc ++ p), ih ([] ++ p)]
    simp

lemma concat_cons {α : Type} (p : List α) (ps : List (List α)) :
    Genvec.concat (p :: ps) = p ++ Genvec.concat ps := by
  unfold Genvec.concat
  simp only [List.foldl_cons, List.nil_append]
  exact concat_foldl_acc ps p

lemma concat_chunks {α : Type} :
    ∀ (count len : Nat) (v : List α), count * len ≤ v.length →
      Genvec.concat (Genvec.chunks count len v) = v.take (count * len) := by
  intro count
  induction count with
  | zero => intro len v _; simp [Genvec.chunks, Genvec.concat]
  | succ c ih =>
    intro len v h
    have hlen : len ≤ v.length := by
      have : len ≤ (c + 1) * len := by
        have := Nat.le_mul_of_pos_left len (Nat.succ_pos c)
        simpa [Nat.mul_comm] using this
      omega
    have hrest : c * len ≤ (v.drop len).length := by
      simp only [List.length_drop]
      have : (c + 1) * len = c * len + len := by ring
      omega
    rw [Genvec.chunks, concat_cons, ih len (v.drop len) hrest]
    have : (c + 1) * len = len + c * len := by ring
    rw [this, List.take_add]

/-! ## Lemmas: claims C3 and C7 (generic vector storage) -/

/-- Claim C3, as stated, is false on the code: `pop` on an empty vector
does not panic — its return type is `Option<ELEM>` and it returns the
recoverable value `None` (for the dense, bit-packed and unit backings
alike), and the unit backing's `get` checks its bound only with a
`debug_assert!`, returning unit normally in release builds. -/
theorem claim_C3_counterexample :
    Genvec.pop ([] : List Nat) = none ∧
    Genvec.unitPop 0 = none ∧
    Genvec.unitGet 0 3 = () := by
  exact ⟨rfl, rfl, rfl⟩

/-- Claim C3 (corrected): on the dense and bit-packed backings, `get` and
`set` with `index ≥ len` fail with an out-of-bounds panic; the unit
backing checks the bound only with a `debug_assert!` (its release `get`
returns unit unconditionally); and `pop` on an empty vector returns the
recoverable value `None` — not a panic — on every backing. -/
theorem claim_C3 {α : Type} (v : List α) (index : Nat)
    (h : v.length ≤ index) :
    Genvec.get v index = Except.error "index out of bounds" ∧
    (∀ e : α, Genvec.set v index e = Except.error "index out of bounds") ∧
    Genvec.pop ([] : List α) = none ∧
    Genvec.unitPop 0 = none ∧
    Genvec.unitGet 0 index = () := by
  refine ⟨?_, ?_, rfl, rfl, rfl⟩
  · unfold Genvec.get
    rw [List.get?_eq_none.mpr h]
  · intro e
    unfold Genvec.set
    rw [if_neg (by omega)]

theorem claim_C3_witness :
    ([5, 6] : List Nat).length ≤ 7 ∧
    Genvec.get [5, 6] 7 = Except.error "index out of bounds" := by
  refine ⟨by decide, ?_⟩
  exact (claim_C3 [5, 6] 7 (by decide)).1

/-- Claim C7: for every generic vector `v` and chunk length `k ≥ 1`,
`concat(split(v, k))` reproduces exactly the first `k * (len / k)`
elements of `v` in order; `split` on an empty vector yields zero chunks,
and `split` with `k = 0` on a non-empty vector is a precondition
violation (panic). -/
theorem claim_C7 {α : Type} (v : List α) (k : Nat) :
    (∀ ps, Genvec.split v k = Except.ok ps →
      Genvec.concat ps = v.take (k * (v.length / k))) ∧
    Genvec.split ([] : List α) k = Except.ok [] ∧
    (v ≠ [] → Genvec.split v 0 =
      Except.error "assertion violated: len != 0") := by
  refine ⟨?_, by simp [Genvec.split], ?_⟩
  · intro ps hps
    unfold Genvec.split at hps
    by_cases h0 : v.length = 0
    · rw [if_pos h0] at hps
      cases hps
      have : v = [] := List.eq_nil_of_length_eq_zero h0
      subst this
      simp [Genvec.concat]
    · rw [if_neg h0] at hps
      by_cases hk : k = 0
      · rw [if_pos hk] at hps; cases hps
      · rw [if_neg hk] at hps
        cases hps
        have hbound : v.length / k * k ≤ v.length := Nat.div_mul_le_self _ _
        rw [concat_chunks (v.length / k) k v (by omega)]
        congr 1
        ring
  · intro hv
    unfold Genvec.split
    rw [if_neg (by simpa using hv), if_pos rfl]

theorem claim_C7_witness :
    Genvec.split ([1, 2, 3, 4, 5] : List Nat) 2 = Except.ok [[1, 2], [3, 4]] ∧
    Genvec.concat [[1, 2], [3, 4]] = ([1, 2, 3, 4, 5] : List Nat).take (2 * (5 / 2)) ∧
    Genvec.split ([1] : List Nat) 0 = Except.error "assertion violated: len != 0" := by
  refine ⟨rfl, ?_, ?_⟩
  · exact (claim_C7 [1, 2, 3, 4, 5] 2).1 [[1, 2], [3, 4]] rfl
  · exact (claim_C7 [1] 0).2.2 (by decide)

/-! ## Lemmas: claims C9 and C2 (bit folds and comparisons) -/

/-- Claim C9: over the concrete Boolean backend, `bit_all` of the empty
vector is the one-element vector `[true]` and `bit_any` of the empty
vector is `[false]` — the folds start from the algebra's unit and zero. -/
theorem claim_C9 :
    bit_all [] = [true] ∧ bit_any [] = [false] := by
  exact ⟨rfl, rfl⟩

/-- Claim C2, as stated, is false on the code: `num_le` is an unsigned
comparison (as its own doc comment says), not a comparison of the
represented two's-complement values.  The encoding `num_lift 4 13`
represents the value `-3` and `num_lift 4 2` represents `2`; the signed
comparison `-3 ≤ 2` holds, but `num_le` returns `[false]` because
`13 ≤ 2` fails as unsigned 4-bit numbers. -/
theorem claim_C2_counterexample :
    twosComplement (num_lift 4 13) = -3 ∧
    twosComplement (num_lift 4 2) = 2 ∧
    ((-3 : Int) ≤ 2) ∧
    num_le (num_lift 4 13) (num_lift 4 2) = [false] := by
  decide

/-- Claim C2 (corrected): over the concrete Boolean backend, for 4-bit
operands ranging over all 16 encodings, `num_eq` and `num_ne` return the
one-element vector holding the truth of equality/disequality of the
represented values (including negative wraparound,
`num_lift 4 13 = num_lift 4 (-3)`), while `num_le` and `num_lt` return
the truth of the *unsigned* comparison of the encodings (the values
reduced mod 16 into `0..15`), not of the signed two's-complement
values. -/
theorem claim_C2 :
    (∀ a b : Fin 16,
      num_eq (num_lift 4 (a : Int)) (num_lift 4 (b : Int)) = [decide (a = b)] ∧
      num_ne (num_lift 4 (a : Int)) (num_lift 4 (b : Int)) = [decide (a ≠ b)] ∧
      num_le (num_lift 4 (a : Int)) (num_lift 4 (b : Int)) = [decide (a.val ≤ b.val)] ∧
      num_lt (num_lift 4 (a : Int)) (num_lift 4 (b : Int)) = [decide (a.val < b.val)]) ∧
    num_lift 4 13 = num_lift 4 (-3) := by
  decide

/-! ## Lemmas: binary arithmetic -/

lemma ediv_ediv_two (a c : Int) (hc : 0 < c) : a / 2 / c = a / (2 * c) := by
  have e1 : 2 * (a / 2) + a % 2 = a := Int.ediv_add_emod a 2
  have e2 : c * (a / 2 / c) + a / 2 % c = a / 2 := Int.ediv_add_emod (a / 2) c
  have hr1 : 0 ≤ a % 2 := Int.emod_nonneg a (by norm_num)
  have hr1b : a % 2 < 2 := Int.emod_lt_of_pos a (by norm_num)
  have hr2 : 0 ≤ a / 2 % c := Int.emod_nonneg _ (by omega)
  have hr2b : a / 2 % c < c := Int.emod_lt_of_pos _ hc
  have key : 2 * (a / 2 % c) + a % 2 + 2 * c * (a / 2 / c) = a := by
    linear_combination 2 * e2 + e1
  have huniq := (Int.ediv_emod_unique (a := a) (b := 2 * c)
    (r := 2 * (a / 2 % c) + a % 2) (q := a / 2 / c) (by positivity)).mpr
    ⟨by linarith [key], by linarith, by linarith⟩
  exact huniq.1.symm

lemma num_lift_succ (n : Nat) (a : Int) :
    num_lift (n + 1) a = decide (a % 2 ≠ 0) :: num_lift n (a.fdiv 2) := by
  unfold num_lift
  rw [List.range_succ_eq_map, List.map_cons, List.map_map]
  congr 1
  · simp [bool_lift, Int.fdiv_one]
  · have hfun : ∀ i : Nat,
        a.fdiv (2 ^ (i + 1)) = (a.fdiv 2).fdiv (2 ^ i) := by
      intro i
      rw [Int.fdiv_eq_ediv _ (by positivity), Int.fdiv_eq_ediv _ (by norm_num),
        Int.fdiv_eq_ediv _ (by positivity),
        ediv_ediv_two a ((2 : Int) ^ i) (by positivity)]
      congr 1
      rw [pow_succ]
      ring
    have : ((fun i => bool_lift (decide (a.fdiv (2 ^ i) % 2 ≠ 0))) ∘ Nat.succ) =
        fun i => bool_lift (decide ((a.fdiv 2).fdiv (2 ^ i) % 2 ≠ 0)) := by
      funext i
      simp only [Function.comp]
      rw [show Nat.succ i = i + 1 from rfl, hfun i]
    rw [this]

lemma sum3_parity (a b : Int) (c : Bool) :
    bool_sum3 (decide (a % 2 ≠ 0)) (decide (b % 2 ≠ 0)) c =
      decide ((a + b + (if c then 1 else 0)) % 2 ≠ 0) := by
  rcases Int.emod_two_eq a with ha | ha <;> rcases Int.emod_two_eq b with hb | hb <;>
    cases c <;>
    · simp only [bool_sum3, bool_xor, ha, hb, ite_true, ite_false, Bool.false_eq_true]
      rcases Int.emod_two_eq (a + b + 1) with hs | hs <;>
        rcases Int.emod_two_eq (a + b + 0) with ht | ht <;>
        first
          | omega
          | (rw [hs]; decide)
          | (rw [ht]; decide)

lemma maj_carry (a b : Int) (c : Bool) :
    a.fdiv 2 + b.fdiv 2 +
        (if bool_maj (decide (a % 2 ≠ 0)) (decide (b % 2 ≠ 0)) c then 1 else 0) =
      (a + b + (if c then 1 else 0)).fdiv 2 := by
  rw [Int.fdiv_eq_ediv _ (by norm_num), Int.fdiv_eq_ediv _ (by norm_num),
    Int.fdiv_eq_ediv _ (by norm_num)]
  rcases Int.emod_two_eq a with ha | ha <;> rcases Int.emod_two_eq b with hb | hb <;>
    cases c <;>
    · simp only [bool_maj, ha, hb, ite_true, ite_false, Bool.false_eq_true]
      norm_num
      omega

lemma addChain_lift (n : Nat) :
    ∀ (a b : Int) (c : Bool),
      addChain c ((num_lift n a).zip (num_lift n b)) =
        num_lift n (a + b + (if c then 1 else 0)) := by
  induction n with
  | zero => intro a b c; rfl
  | succ n ih =>
    intro a b c
    rw [num_lift_succ n a, num_lift_succ n b, num_lift_succ n (a + b + _),
      List.zip_cons_cons]
    show bool_sum3 _ _ c :: addChain (bool_maj _ _ c) _ = _ :: _
    congr 1
    · exact sum3_parity a b c
    · rw [ih (a.fdiv 2) (b.fdiv 2) (bool_maj _ _ c), maj_carry a b c]

/-- Claim C4: over the concrete Boolean backend, for every bit width `n`
and all integers `a`, `b`:
`num_add (num_lift n a) (num_lift n b) = num_lift n (a + b)` — the
ripple-carry chain (3-input XOR sum bit, majority carry, initial carry
false) computes addition exactly modulo `2 ^ n`. -/
theorem claim_C4 (n : Nat) (a b : Int) :
    num_add (num_lift n a) (num_lift n b) = num_lift n (a + b) := by
  have h := addChain_lift n a b false
  simpa [num_add, bool_zero] using h

lemma subChain_eq (l : List (Bool × Bool)) :
    ∀ (cN cA : Bool), (cN && cA) = false →
      subChain (cN || cA) l =
        addChain cA ((l.map Prod.fst).zip (negChain cN (l.map Prod.snd))) := by
  induction l with
  | nil => intro cN cA _; rfl
  | cons p rest ih =>
    obtain ⟨a, b⟩ := p
    intro cN cA h
    simp only [List.map_cons, negChain, List.zip_cons_cons, subChain, addChain]
    congr 1
    · revert h
      cases a <;> cases b <;> cases cN <;> cases cA <;> decide
    · have h1 : (bool_and (bool_not b) cN &&
          bool_maj a (bool_xor (bool_not b) cN) cA) = false := by
        revert h
        cases a <;> cases b <;> cases cN <;> cases cA <;> decide
      have h2 : bool_maj a (bool_not b) (cN || cA) =
          (bool_and (bool_not b) cN || bool_maj a (bool_xor (bool_not b) cN) cA) := by
        revert h
        cases a <;> cases b <;> cases cN <;> cases cA <;> decide
      rw [h2]
      exact ih _ _ h1

lemma negChain_eq_addChain (l : List Bool) :
    ∀ c : Bool, negChain c l = addChain c (l.map (fun a => (bool_not a, false))) := by
  induction l with
  | nil => intro c; rfl
  | cons a rest ih =>
    intro c
    simp only [negChain, List.map_cons, addChain]
    congr 1
    · cases a <;> cases c <;> rfl
    · rw [ih]
      congr 1
      cases a <;> cases c <;> rfl

lemma num_lift_zero (n : Nat) : num_lift n 0 = List.replicate n false := by
  unfold num_lift
  rw [show (fun i => bool_lift (decide ((0 : Int).fdiv (2 ^ i) % 2 ≠ 0))) =
      fun _ : Nat => false by
    funext i
    simp [bool_lift, Int.zero_fdiv]]
  rw [List.map_const', List.length_range]

lemma num_lift_one (n : Nat) : num_lift (n + 1) 1 = true :: List.replicate n false := by
  rw [num_lift_succ, show (1 : Int).fdiv 2 = 0 from by decide, num_lift_zero]
  rfl

lemma zip_map_replicate {α β γ : Type} (f : α → β) (c : γ) (l : List α) :
    (l.map f).zip (List.replicate l.length c) = l.map (fun a => (f a, c)) := by
  induction l with
  | nil => rfl
  | cons a rest ih => simp [List.replicate_succ, ih]

lemma num_neg_eq (b : List Bool) :
    num_neg b = num_add (bit_not b) (num_lift b.length 1) := by
  cases b with
  | nil => rfl
  | cons x rest =>
    show negChain bool_unit (x :: rest) = _
    rw [show (x :: rest).length = rest.length + 1 from rfl, num_lift_one]
    unfold num_add bit_not
    rw [List.map_cons, List.zip_cons_cons, zip_map_replicate bool_not false rest]
    simp only [negChain, addChain]
    congr 1
    · cases x <;> rfl
    · rw [negChain_eq_addChain]
      congr 1
      cases x <;> rfl

lemma bitsToNat_lt (l : List Bool) : bitsToNat l < 2 ^ l.length := by
  induction l with
  | nil => decide
  | cons b rest ih =>
    simp only [bitsToNat, List.length_cons, pow_succ]
    cases b <;> simp [Bool.toNat] <;> omega

lemma addChain_length (l : List (Bool × Bool)) :
    ∀ c : Bool, (addChain c l).length = l.length := by
  induction l with
  | nil => intro c; rfl
  | cons p rest ih =>
    obtain ⟨a, b⟩ := p
    intro c
    simp [addChain, ih]

lemma addChain_val (l : List (Bool × Bool)) :
    ∀ c : Bool, bitsToNat (addChain c l) + 2 ^ l.length * (addCarry c l).toNat =
      bitsToNat (l.map Prod.fst) + bitsToNat (l.map Prod.snd) + c.toNat := by
  induction l with
  | nil => intro c; simp [addChain, addCarry, bitsToNat]
  | cons p rest ih =>
    obtain ⟨a, b⟩ := p
    intro c
    simp only [addChain, addCarry, List.map_cons, bitsToNat, List.length_cons, pow_succ]
    have hadder : (bool_sum3 a b c).toNat + 2 * (bool_maj a b c).toNat =
        a.toNat + b.toNat + c.toNat := by
      cases a <;> cases b <;> cases c <;> rfl
    have hrest := ih (bool_maj a b c)
    linarith [hrest, hadder]

lemma num_add_val (l1 l2 : List Bool) (h : l1.length = l2.length) (c : Bool) :
    bitsToNat (addChain c (l1.zip l2)) =
      (bitsToNat l1 + bitsToNat l2 + c.toNat) % 2 ^ l1.length := by
  have hv := addChain_val (l1.zip l2) c
  rw [List.map_fst_zip l1 l2 (le_of_eq h), List.map_snd_zip l1 l2 h.ge] at hv
  have hlen : (l1.zip l2).length = l1.length := by
    rw [List.length_zip, h, min_self]
  rw [hlen] at hv
  have hlt : bitsToNat (addChain c (l1.zip l2)) < 2 ^ l1.length := by
    have hl := bitsToNat_lt (addChain c (l1.zip l2))
    rwa [addChain_length, hlen] at hl
  have hmod : (bitsToNat (addChain c (l1.zip l2)) +
      2 ^ l1.length * (addCarry c (l1.zip l2)).toNat) % 2 ^ l1.length =
        bitsToNat (addChain c (l1.zip l2)) := by
    rw [Nat.add_mul_mod_self_left]
    exact Nat.mod_eq_of_lt hlt
  rw [hv] at hmod
  exact hmod.symm

lemma bit_not_val (l : List Bool) :
    bitsToNat (bit_not l) = 2 ^ l.length - 1 - bitsToNat l := by
  induction l with
  | nil => rfl
  | cons a rest ih =>
    have h := bitsToNat_lt rest
    simp only [bit_not, List.map_cons, bitsToNat, List.length_cons, pow_succ] at *
    cases a <;> simp [bool_not, Bool.toNat] <;> omega

lemma bitsToNat_replicate_false (n : Nat) :
    bitsToNat (List.replicate n false) = 0 := by
  induction n with
  | zero => rfl
  | succ n ih => simp [List.replicate_succ, bitsToNat, ih]

lemma num_lift_length (n : Nat) (a : Int) : (num_lift n a).length = n := by
  simp [num_lift]

lemma bit_not_length (l : List Bool) : (bit_not l).length = l.length := by
  simp [bit_not]

/-- Claim C8: over the concrete Boolean backend, the overridden `num_sub`
(bitwise negation of the second operand fed into the adder with carry
seeded true) equals the default `num_add(a, num_neg(b))`; the inline
`num_neg` (bitwise-not with carry seeded true) equals bitwise-not followed
by adding the constant one; and `num_neg` realizes
`(2 ^ n - x) mod 2 ^ n` exactly, including `x = 0`. -/
theorem claim_C8 :
    (∀ a b : List Bool, a.length = b.length →
      num_sub a b = num_add a (num_neg b)) ∧
    (∀ b : List Bool, num_neg b = num_add (bit_not b) (num_lift b.length 1)) ∧
    (∀ b : List Bool, bitsToNat (num_neg b) =
      (2 ^ b.length - bitsToNat b) % 2 ^ b.length) := by
  refine ⟨?_, num_neg_eq, ?_⟩
  · intro a b h
    have hs := subChain_eq (a.zip b) true false rfl
    rw [List.map_fst_zip a b (le_of_eq h), List.map_snd_zip a b h.ge] at hs
    simpa [num_sub, num_add, num_neg, bool_unit, bool_zero] using hs
  · intro b
    rw [num_neg_eq b]
    cases b with
    | nil => rfl
    | cons x rest =>
      have hl : (bit_not (x :: rest)).length = (num_lift (x :: rest).length 1).length := by
        rw [bit_not_length, num_lift_length]
      have hv := num_add_val (bit_not (x :: rest)) (num_lift (x :: rest).length 1) hl false
      have h1 : bitsToNat (num_lift (x :: rest).length 1) = 1 := by
        rw [show (x :: rest).length = rest.length + 1 from rfl, num_lift_one]
        simp [bitsToNat, bitsToNat_replicate_false, Bool.toNat]
      have h2 := bit_not_val (x :: rest)
      have h3 := bitsToNat_lt (x :: rest)
      show bitsToNat (addChain bool_zero _) = _
      rw [show bool_zero = false from rfl, hv, h1, h2, bit_not_length, Bool.toNat_false]
      congr 1
      omega

theorem claim_C8_witness :
    num_sub [true, false, true] [true, true, false] =
      num_add [true, false, true] (num_neg [true, true, false]) ∧
    num_neg [true, true] = num_add (bit_not [true, true]) (num_lift 2 1) ∧
    bitsToNat (num_neg [false, false]) =
      (2 ^ 2 - bitsToNat [false, false]) % 2 ^ 2 := by
  exact ⟨claim_C8.1 _ _ rfl, claim_C8.2.1 [true, true], claim_C8.2.2 [false, false]⟩

/-! ## Lemmas: shape sizes -/

lemma size_foldl_acc (ds : List Nat) :
    ∀ a : Nat, ds.foldl (fun s d => s * d) a = a * Shape.size ds := by
  induction ds with
  | nil => intro a; simp [Shape.size]
  | cons d ds ih =>
    intro a
    show ds.foldl _ (a * d) = a * Shape.size (d :: ds)
    rw [ih (a * d), show Shape.size (d :: ds) = ds.foldl (fun s d => s * d) (1 * d) from rfl,
      ih (1 * d)]
    ring

lemma size_cons (d : Nat) (ds : List Nat) :
    Shape.size (d :: ds) = d * Shape.size ds := by
  show ds.foldl _ (1 * d) = _
  rw [size_foldl_acc]
  ring

lemma size_append (l1 l2 : List Nat) :
    Shape.size (l1 ++ l2) = Shape.size l1 * Shape.size l2 := by
  induction l1 with
  | nil => simp [Shape.size]
  | cons d ds ih => rw [List.cons_append, size_cons, ih, size_cons]; ring

lemma size_eq_zero_of_mem (ds : List Nat) (h : 0 ∈ ds) : Shape.size ds = 0 := by
  induction ds with
  | nil => cases h
  | cons d ds ih =>
    rw [size_cons]
    rcases List.mem_cons.mp h with h0 | h0
    · rw [← h0, Nat.zero_mul]
    · rw [ih h0, Nat.mul_zero]

lemma size_pos (ds : List Nat) (h : ∀ d ∈ ds, 0 < d) : 0 < Shape.size ds := by
  induction ds with
  | nil => decide
  | cons d ds ih =>
    rw [size_cons]
    exact Nat.mul_pos (h d (by simp)) (ih fun x hx => h x (by simp [hx]))

/-! ## Lemmas: mixed-radix odometer arithmetic -/

lemma succ_mod_div_lt {k d : Nat} (h : k % d + 1 < d) :
    (k + 1) % d = k % d + 1 ∧ (k + 1) / d = k / d := by
  have e := Nat.div_add_mod k d
  have hd : 0 < d := by omega
  constructor
  · rw [show k + 1 = (k % d + 1) + d * (k / d) from by omega,
      Nat.add_mul_mod_self_left, Nat.mod_eq_of_lt h]
  · rw [show k + 1 = (k % d + 1) + d * (k / d) from by omega,
      Nat.add_mul_div_left _ _ hd, Nat.div_eq_of_lt h, Nat.zero_add]

lemma succ_mod_div_eq {k d : Nat} (hd : 0 < d) (h : k % d + 1 = d) :
    (k + 1) % d = 0 ∧ (k + 1) / d = k / d + 1 := by
  have e := Nat.div_add_mod k d
  have hk1 : k + 1 = 0 + d * (k / d + 1) := by rw [Nat.mul_succ]; omega
  constructor
  · rw [hk1, Nat.add_mul_mod_self_left, Nat.zero_mod]
  · rw [hk1, Nat.add_mul_div_left _ _ hd, Nat.zero_div, Nat.zero_add]

lemma digitDot_zero (ds : List Nat) : ∀ ss : List Nat, digitDot ds ss 0 = 0 := by
  induction ds with
  | nil => intro ss; cases ss <;> rfl
  | cons d ds ih =>
    intro ss
    cases ss with
    | nil => rfl
    | cons s ss =>
      show 0 % d * s + digitDot ds ss (0 / d) = 0
      rw [Nat.zero_mod, Nat.zero_div, Nat.zero_mul, Nat.zero_add, ih]

lemma entriesOf_new (ds : List Nat) :
    ds.map (fun d => (0, d, 0)) = entriesOf ds (List.replicate ds.length 0) 0 := by
  induction ds with
  | nil => rfl
  | cons d ds ih =>
    show (0, d, 0) :: ds.map _ = (0 % d, d, 0) :: entriesOf ds (List.replicate ds.length 0) (0 / d)
    rw [Nat.zero_mod, Nat.zero_div, ih]

lemma stepEntries_cons_carry (c d s : Nat) (rest : List (Nat × Nat × Nat))
    (index : Nat) (h : c + 1 ≥ d) :
    stepEntries ((c, d, s) :: rest) index =
      ((0, d, s) :: (stepEntries rest (index + s - (c + 1) * s)).1,
       (stepEntries rest (index + s - (c + 1) * s)).2.1,
       (stepEntries rest (index + s - (c + 1) * s)).2.2) := by
  simp [stepEntries, h]

lemma stepEntries_cons_nocarry (c d s : Nat) (rest : List (Nat × Nat × Nat))
    (index : Nat) (h : ¬ c + 1 ≥ d) :
    stepEntries ((c, d, s) :: rest) index = ((c + 1, d, s) :: rest, index + s, false) := by
  simp [stepEntries, h]

lemma stepEntries_spec (ds : List Nat) :
    ∀ (ss : List Nat) (k : Nat), ds.length = ss.length → (∀ d ∈ ds, 0 < d) →
      k + 1 ≤ Shape.size ds →
      stepEntries (entriesOf ds ss k) (digitDot ds ss k) =
        (entriesOf ds ss (k + 1), digitDot ds ss (k + 1),
          decide (k + 1 = Shape.size ds)) := by
  induction ds with
  | nil =>
    intro ss k hlen _ hk
    have hss : ss = [] := List.eq_nil_of_length_eq_zero hlen.symm
    subst hss
    have hk0 : k = 0 := by
      have : Shape.size ([] : List Nat) = 1 := rfl
      omega
    subst hk0
    rfl
  | cons d ds ih =>
    intro ss k hlen hpos hk
    cases ss with
    | nil => simp at hlen
    | cons s ss =>
      have hd : 0 < d := hpos d (by simp)
      have hpos2 : ∀ x ∈ ds, 0 < x := fun x hx => hpos x (by simp [hx])
      have hlen2 : ds.length = ss.length := by simpa using hlen
      have hmod : k % d < d := Nat.mod_lt k hd
      rw [size_cons] at hk
      show stepEntries ((k % d, d, s) :: entriesOf ds ss (k / d))
          (k % d * s + digitDot ds ss (k / d)) = _
      by_cases hc : k % d + 1 ≥ d
      · have hce : k % d + 1 = d := by omega
        obtain ⟨hm1, hm2⟩ := succ_mod_div_eq hd hce
        have hidx : k % d * s + digitDot ds ss (k / d) + s - (k % d + 1) * s =
            digitDot ds ss (k / d) := by
          rw [Nat.succ_mul]
          omega
        have hk1 : k + 1 = d * (k / d + 1) := by
          have e := Nat.div_add_mod k d
          rw [Nat.mul_succ]
          omega
        have hkd : k / d + 1 ≤ Shape.size ds := by
          rw [hk1] at hk
          exact Nat.le_of_mul_le_mul_left hk hd
        have hdec : decide (k + 1 = Shape.size (d :: ds)) =
            decide (k / d + 1 = Shape.size ds) := by
          rw [size_cons]
          rcases Nat.decEq (k / d + 1) (Shape.size ds) with hne | heq
          · rw [decide_eq_false hne, decide_eq_false
              (fun hcon => hne (Nat.eq_of_mul_eq_mul_left hd (hk1 ▸ hcon)))]
          · rw [decide_eq_true heq, decide_eq_true (by rw [hk1, heq])]
        have hE : entriesOf (d :: ds) (s :: ss) (k + 1) =
            (0, d, s) :: entriesOf ds ss (k / d + 1) := by
          show ((k + 1) % d, d, s) :: entriesOf ds ss ((k + 1) / d) = _
          rw [hm1, hm2]
        have hD : digitDot (d :: ds) (s :: ss) (k + 1) = digitDot ds ss (k / d + 1) := by
          show (k + 1) % d * s + digitDot ds ss ((k + 1) / d) = _
          rw [hm1, hm2, Nat.zero_mul, Nat.zero_add]
        rw [stepEntries_cons_carry _ _ _ _ _ hc, hidx,
          ih ss (k / d) hlen2 hpos2 hkd, hE, hD, hdec]
      · have hlt : k % d + 1 < d := by omega
        obtain ⟨hm1, hm2⟩ := succ_mod_div_lt hlt
        have hne2 : ¬ (k + 1 = Shape.size (d :: ds)) := by
          rw [size_cons]
          intro hcon
          have h0 : (k + 1) % d = 0 := by rw [hcon]; exact Nat.mul_mod_right d _
          rw [hm1] at h0
          exact Nat.succ_ne_zero (k % d) h0
        have hE : entriesOf (d :: ds) (s :: ss) (k + 1) =
            (k % d + 1, d, s) :: entriesOf ds ss (k / d) := by
          show ((k + 1) % d, d, s) :: entriesOf ds ss ((k + 1) / d) = _
          rw [hm1, hm2]
        have hD : digitDot (d :: ds) (s :: ss) (k + 1) =
            k % d * s + digitDot ds ss (k / d) + s := by
          show (k + 1) % d * s + digitDot ds ss ((k + 1) / d) = _
          rw [hm1, hm2, Nat.succ_mul]
          ring
        rw [stepEntries_cons_nocarry _ _ _ _ _ hc, hE, hD, decide_eq_false hne2]

lemma run_done (fuel : Nat) (entries : List (Nat × Nat × Nat)) (index : Nat) :
    StrideIter.run fuel ⟨entries, index, true⟩ = [] := by
  cases fuel <;> simp [StrideIter.run, StrideIter.next]

lemma next_not_done (entries : List (Nat × Nat × Nat)) (index : Nat) :
    StrideIter.next ⟨entries, index, false⟩ =
      some (index, ⟨(stepEntries entries index).1, (stepEntries entries index).2.1,
        (stepEntries entries index).2.2⟩) := by
  simp [StrideIter.next]

lemma run_from (ds ss : List Nat) (hlen : ds.length = ss.length)
    (hpos : ∀ d ∈ ds, 0 < d) :
    ∀ (n k fuel : Nat), 0 < n → k + n = Shape.size ds → n ≤ fuel →
      StrideIter.run fuel ⟨entriesOf ds ss k, digitDot ds ss k, false⟩ =
        (List.range' k n).map (fun j => digitDot ds ss j) := by
  intro n
  induction n with
  | zero => intro k fuel h0 _ _; omega
  | succ n ih =>
    intro k fuel _ hk hf
    obtain ⟨f, rfl⟩ : ∃ f, fuel = f + 1 := ⟨fuel - 1, by omega⟩
    rw [StrideIter.run, next_not_done,
      stepEntries_spec ds ss k hlen hpos (by omega)]
    rw [List.range'_succ, List.map_cons]
    cases n with
    | zero =>
      rw [decide_eq_true (show k + 1 = Shape.size ds from by omega)]
      simp only [run_done]
      rfl
    | succ m =>
      rw [decide_eq_false (show ¬ k + 1 = Shape.size ds from by omega)]
      have htail := ih (k + 1) f (by omega) (by omega) (by omega)
      simp only []
      rw [htail]

/-- Claim C6: for every shape, the stride iterator constructed from it
yields exactly `shape.size()` values and then returns `None` forever (the
run length is `shape.size()` for every fuel at least that large); with a
zero dimension it yields nothing, and for the empty shape it yields
exactly one value. -/
theorem claim_C6 (shape : List Nat) (fuel : Nat)
    (hf : Shape.size shape ≤ fuel) :
    (StrideIter.run fuel (StrideIter.new shape)).length = Shape.size shape ∧
    (0 ∈ shape → StrideIter.run fuel (StrideIter.new shape) = []) ∧
    (shape = [] → StrideIter.run fuel (StrideIter.new shape) = [0]) := by
  by_cases hz : 0 ∈ shape
  · have hdone : shape.any (fun d => d == 0) = true :=
      List.any_eq_true.mpr ⟨0, hz, by decide⟩
    have hrun : StrideIter.run fuel (StrideIter.new shape) = [] := by
      show StrideIter.run fuel ⟨shape.map (fun d => (0, d, 0)), 0,
        shape.any (fun d => d == 0)⟩ = []
      rw [hdone, run_done]
    have hsz := size_eq_zero_of_mem shape hz
    refine ⟨by rw [hrun, hsz]; rfl, fun _ => hrun, fun he => ?_⟩
    · subst he; cases hz
  · have hpos : ∀ d ∈ shape, 0 < d := by
      intro d hd
      rcases Nat.eq_zero_or_pos d with h0 | h0
      · exact absurd (h0 ▸ hd) hz
      · exact h0
    have hany : shape.any (fun d => d == 0) = false := by
      rw [List.any_eq_false]
      intro d hd
      have := hpos d hd
      simp
      omega
    have hsz := size_pos shape hpos
    have hnew : StrideIter.new shape =
        ⟨entriesOf shape (List.replicate shape.length 0) 0,
          digitDot shape (List.replicate shape.length 0) 0, false⟩ := by
      show (⟨shape.map (fun d => (0, d, 0)), 0, shape.any (fun d => d == 0)⟩ :
        StrideIter) = _
      rw [hany, entriesOf_new, digitDot_zero]
    have hrun := run_from shape (List.replicate shape.length 0) (by simp) hpos
      (Shape.size shape) 0 fuel hsz (by omega) hf
    rw [hnew, hrun]
    refine ⟨by rw [List.length_map, List.length_range'], fun h => absurd h hz, ?_⟩
    intro he
    subst he
    rfl

theorem claim_C6_witness :
    Shape.size [2, 3] ≤ 7 ∧
    (StrideIter.run 7 (StrideIter.new [2, 3])).length = Shape.size [2, 3] := by
  exact ⟨by decide, (claim_C6 [2, 3] 7 (by decide)).1⟩

/-! ## Lemmas: row-major indexing -/

lemma indexAux_acc (l : List (Nat × Nat)) :
    ∀ (index sz : Nat), Shape.indexAux l index sz = index + sz * coordVal l := by
  induction l with
  | nil => intro index sz; simp [Shape.indexAux, coordVal]
  | cons p rest ih =>
    obtain ⟨c, d⟩ := p
    intro index sz
    show Shape.indexAux rest (index + c * sz) (sz * d) = index + sz * coordVal ((c, d) :: rest)
    rw [ih, coordVal]
    ring

lemma index_eq_coordVal (ds cs : List Nat) :
    Shape.index ds cs = coordVal (cs.zip ds) := by
  unfold Shape.index
  rw [indexAux_acc]
  ring

lemma index_cons (d : Nat) (ds : List Nat) (c : Nat) (cs : List Nat) :
    Shape.index (d :: ds) (c :: cs) = c + d * Shape.index ds cs := by
  rw [index_eq_coordVal, index_eq_coordVal]
  rfl

lemma index_lt_size (ds : List Nat) :
    ∀ cs : List Nat, cs.length = ds.length →
      (∀ i, i < ds.length → cs.getD i 0 < ds.getD i 0) →
      Shape.index ds cs < Shape.size ds := by
  induction ds with
  | nil =>
    intro cs hlen _
    have : cs = [] := List.eq_nil_of_length_eq_zero hlen
    subst this
    decide
  | cons d ds ih =>
    intro cs hlen hv
    cases cs with
    | nil => simp at hlen
    | cons c cs =>
      have hc : c < d := by simpa using hv 0 (by simp)
      have hR : Shape.index ds cs < Shape.size ds :=
        ih cs (by simpa using hlen)
          (fun i hi => by simpa using hv (i + 1) (by simpa using hi))
      have h2 : d * (Shape.index ds cs + 1) ≤ d * Shape.size ds :=
        Nat.mul_le_mul_left d hR
      have h3 : d * (Shape.index ds cs + 1) = d * Shape.index ds cs + d :=
        Nat.mul_succ d _
      rw [index_cons, size_cons]
      omega

lemma digitDot_index (ds : List Nat) :
    ∀ (cs ss : List Nat), cs.length = ds.length →
      (∀ i, i < ds.length → cs.getD i 0 < ds.getD i 0) →
      digitDot ds ss (Shape.index ds cs) = dotProd cs ss := by
  induction ds with
  | nil =>
    intro cs ss hlen _
    have : cs = [] := List.eq_nil_of_length_eq_zero hlen
    subst this
    cases ss <;> rfl
  | cons d ds ih =>
    intro cs ss hlen hv
    cases cs with
    | nil => simp at hlen
    | cons c cs =>
      cases ss with
      | nil => rfl
      | cons s ss =>
        have hc : c < d := by simpa using hv 0 (by simp)
        have hd : 0 < d := by omega
        rw [index_cons]
        show (c + d * Shape.index ds cs) % d * s +
            digitDot ds ss ((c + d * Shape.index ds cs) / d) = c * s + dotProd cs ss
        have hm : (c + d * Shape.index ds cs) % d = c := by
          rw [Nat.add_mul_mod_self_left, Nat.mod_eq_of_lt hc]
        have hq : (c + d * Shape.index ds cs) / d = Shape.index ds cs := by
          rw [Nat.add_mul_div_left _ _ hd, Nat.div_eq_of_lt hc, Nat.zero_add]
        rw [hm, hq, ih cs ss (by simpa using hlen)
          (fun i hi => by simpa using hv (i + 1) (by simpa using hi))]

/-! ## Lemmas: stride accumulation -/

lemma modifyAt_length {α : Type} (f : α → α) :
    ∀ (j : Nat) (l : List α), (modifyAt f j l).length = l.length := by
  intro j
  induction j with
  | zero => intro l; cases l <;> rfl
  | succ j ih =>
    intro l
    cases l with
    | nil => rfl
    | cons a rest => show (a :: modifyAt f j rest).length = _; simp [ih]

lemma dotProd_modifyAt (cs : List Nat) :
    ∀ (ss : List Nat) (j x : Nat), j < cs.length → j < ss.length →
      dotProd cs (modifyAt (fun s => s + x) j ss) =
        dotProd cs ss + cs.getD j 0 * x := by
  induction cs with
  | nil => intro ss j x h _; exact absurd h (Nat.not_lt_zero j)
  | cons c cs ih =>
    intro ss j x hj hs
    cases ss with
    | nil => simp at hs
    | cons s ss =>
      cases j with
      | zero =>
        show c * (s + x) + dotProd cs ss = c * s + dotProd cs ss + (c :: cs).getD 0 0 * x
        rw [List.getD_cons_zero]
        ring
      | succ j =>
        show c * s + dotProd cs (modifyAt _ j ss) =
          c * s + dotProd cs ss + (c :: cs).getD (j + 1) 0 * x
        rw [List.getD_cons_succ, ih ss j x (by simpa using hj) (by simpa using hs)]
        ring

lemma dotProd_replicate_zero (cs : List Nat) :
    ∀ n : Nat, dotProd cs (List.replicate n 0) = 0 := by
  induction cs with
  | nil => intro n; cases n <;> rfl
  | cons c cs ih =>
    intro n
    cases n with
    | zero => rfl
    | succ n =>
      show c * 0 + dotProd cs (List.replicate n 0) = 0
      rw [ih, Nat.mul_zero]

lemma acc_dot (ps : List (Nat × Nat)) :
    ∀ (ss cs : List Nat), (∀ p ∈ ps, p.1 < ss.length) → cs.length = ss.length →
      dotProd cs (ps.foldl (fun ss p => modifyAt (fun s => s + p.2) p.1 ss) ss) =
        dotProd cs ss + sumTerms cs ps := by
  induction ps with
  | nil => intro ss cs _ _; show dotProd cs ss = dotProd cs ss + 0; ring
  | cons p ps ih =>
    obtain ⟨j, x⟩ := p
    intro ss cs hb hlen
    have hj : j < ss.length := hb (j, x) (by simp)
    show dotProd cs (ps.foldl _ (modifyAt (fun s => s + x) j ss)) = _
    rw [ih (modifyAt (fun s => s + x) j ss) cs
      (fun p hp => by rw [modifyAt_length]; exact hb p (by simp [hp]))
      (by rw [modifyAt_length]; exact hlen)]
    rw [dotProd_modifyAt cs ss j x (by omega) hj]
    show _ = dotProd cs ss + (cs.getD j 0 * x + sumTerms cs ps)
    ring

lemma sumTerms_zip (cs : List Nat) (ms : List Nat) :
    ∀ ss : List Nat, sumTerms cs (ms.zip ss) =
      dotProd (ms.map (fun j => cs.getD j 0)) ss := by
  induction ms with
  | nil => intro ss; cases ss <;> rfl
  | cons m ms ih =>
    intro ss
    cases ss with
    | nil => rfl
    | cons s ss =>
      show cs.getD m 0 * s + sumTerms cs (ms.zip ss) = _
      rw [ih ss]
      rfl

lemma dotProd_stridesAux (ds : List Nat) :
    ∀ (cs : List Nat) (sz : Nat),
      dotProd cs (Shape.stridesAux sz ds) = sz * coordVal (cs.zip ds) := by
  induction ds with
  | nil => intro cs sz; cases cs <;> simp [Shape.stridesAux, dotProd, coordVal]
  | cons d ds ih =>
    intro cs sz
    cases cs with
    | nil => simp [dotProd, coordVal]
    | cons c cs =>
      show c * sz + dotProd cs (Shape.stridesAux (sz * d) ds) =
        sz * coordVal ((c, d) :: cs.zip ds)
      rw [ih cs (sz * d), coordVal]
      ring

lemma dotProd_strides (ds cs : List Nat) :
    dotProd cs (Shape.strides ds) = Shape.index ds cs := by
  unfold Shape.strides
  rw [dotProd_stridesAux, index_eq_coordVal]
  ring

/-! ## Lemmas: the polymer operation -/

lemma entriesOf_zero (ds : List Nat) :
    ∀ ss : List Nat, entriesOf ds ss 0 =
      List.zipWith (fun d s => (0, d, s)) ds ss := by
  induction ds with
  | nil => intro ss; cases ss <;> rfl
  | cons d ds ih =>
    intro ss
    cases ss with
    | nil => rfl
    | cons s ss =>
      show (0 % d, d, s) :: entriesOf ds ss (0 / d) = _
      rw [Nat.zero_mod, Nat.zero_div, ih]
      rfl

lemma modifyAt_zipWith (ds : List Nat) :
    ∀ (ss : List Nat) (j x : Nat),
      modifyAt (fun e => (e.1, e.2.1, e.2.2 + x)) j
          (List.zipWith (fun d s => (0, d, s)) ds ss) =
        List.zipWith (fun d s => (0, d, s)) ds (modifyAt (fun s => s + x) j ss) := by
  induction ds with
  | nil => intro ss j x; simp [modifyAt]
  | cons d ds ih =>
    intro ss j x
    cases ss with
    | nil => cases j <;> rfl
    | cons s ss =>
      cases j with
      | zero => rfl
      | succ j =>
        show (0, d, s) :: modifyAt _ j (List.zipWith _ ds ss) = _
        rw [ih ss j x]
        rfl

lemma foldl_add_stride (ps : List (Nat × Nat)) :
    ∀ (ds ss : List Nat) (ix : Nat) (dn : Bool),
      ps.foldl (fun (it : StrideIter) p => it.add_stride p.1 p.2)
        (StrideIter.mk (List.zipWith (fun d s => (0, d, s)) ds ss) ix dn) =
      StrideIter.mk (List.zipWith (fun d s => (0, d, s)) ds
        (ps.foldl (fun ss p => modifyAt (fun s => s + p.2) p.1 ss) ss)) ix dn := by
  induction ps with
  | nil => intro ds ss ix dn; rfl
  | cons p ps ih =>
    obtain ⟨j, x⟩ := p
    intro ds ss ix dn
    have hinit : StrideIter.add_stride
        (StrideIter.mk (List.zipWith (fun d s => (0, d, s)) ds ss) ix dn) j x =
        StrideIter.mk (List.zipWith (fun d s => (0, d, s)) ds
          (modifyAt (fun s => s + x) j ss)) ix dn := by
      unfold StrideIter.add_stride
      rw [modifyAt_zipWith]
    show ps.foldl (fun (it : StrideIter) p => it.add_stride p.1 p.2)
      (StrideIter.add_stride
        (StrideIter.mk (List.zipWith (fun d s => (0, d, s)) ds ss) ix dn) j x) = _
    rw [hinit, ih]
    rfl

lemma foldl_modify_length (ps : List (Nat × Nat)) :
    ∀ ss : List Nat,
      (ps.foldl (fun ss p => modifyAt (fun s => s + p.2) p.1 ss) ss).length =
        ss.length := by
  induction ps with
  | nil => intro ss; rfl
  | cons p ps ih =>
    intro ss
    show (ps.foldl _ (modifyAt _ p.1 ss)).length = _
    rw [ih, modifyAt_length]

lemma accStrides_length (n : Nat) (ps : List (Nat × Nat)) :
    (accStrides n ps).length = n := by
  unfold accStrides
  rw [foldl_modify_length, List.length_replicate]

lemma polymer_run {α : Type} [Inhabited α] (t : Tensor α) (ns m : List Nat) :
    t.polymer ns m =
      { shape := ns,
        elems := (StrideIter.run (Shape.size ns)
          ⟨List.zipWith (fun d s => (0, d, s)) ns
              (accStrides ns.length (m.zip (Shape.strides t.shape))),
            0, ns.any (fun d => d == 0)⟩).map (fun i => t.elems.getD i default) } := by
  show Tensor.mk ns ((StrideIter.run (Shape.size ns)
    ((m.zip (Shape.strides t.shape)).foldl (fun it p => it.add_stride p.1 p.2)
      (StrideIter.new ns))).map (fun i => t.elems.getD i default)) = _
  have hnew : StrideIter.new ns =
      ⟨List.zipWith (fun d s => (0, d, s)) ns (List.replicate ns.length 0), 0,
        ns.any (fun d => d == 0)⟩ := by
    show StrideIter.mk (ns.map (fun d => (0, d, 0))) 0 _ = _
    rw [entriesOf_new, entriesOf_zero]
  rw [hnew, foldl_add_stride]
  rfl

lemma run_from_zero (ds ss : List Nat) (hlen : ds.length = ss.length)
    (hpos : ∀ d ∈ ds, 0 < d) (fuel : Nat) (hf : Shape.size ds ≤ fuel) :
    StrideIter.run fuel
        (StrideIter.mk (List.zipWith (fun d s => (0, d, s)) ds ss) 0 false) =
      (List.range' 0 (Shape.size ds)).map (fun j => digitDot ds ss j) := by
  have hstate : StrideIter.mk (entriesOf ds ss 0) 0 false =
      StrideIter.mk (entriesOf ds ss 0) (digitDot ds ss 0) false := by
    rw [digitDot_zero]
  rw [← entriesOf_zero, hstate]
  exact run_from ds ss hlen hpos (Shape.size ds) 0 fuel (size_pos ds hpos)
    (Nat.zero_add _) hf

lemma polymer_elems {α : Type} [Inhabited α] (t : Tensor α) (ns m : List Nat)
    (hall : ∀ d ∈ ns, 0 < d) :
    (t.polymer ns m).elems = (List.range' 0 (Shape.size ns)).map
      (fun k => t.elems.getD
        (digitDot ns (accStrides ns.length (m.zip (Shape.strides t.shape))) k)
        default) := by
  have hany : ns.any (fun d => d == 0) = false := by
    rw [List.any_eq_false]
    intro d hd
    have := hall d hd
    simp
    omega
  rw [polymer_run]
  show (StrideIter.run (Shape.size ns) _).map _ = _
  rw [hany,
    run_from_zero ns (accStrides ns.length (m.zip (Shape.strides t.shape)))
      (accStrides_length _ _).symm hall (Shape.size ns) le_rfl,
    List.map_map]
  rfl

lemma polymer_length {α : Type} [Inhabited α] (t : Tensor α) (ns m : List Nat) :
    (t.polymer ns m).elems.length = Shape.size ns := by
  by_cases hz : 0 ∈ ns
  · have hdone : ns.any (fun d => d == 0) = true :=
      List.any_eq_true.mpr ⟨0, hz, by decide⟩
    rw [polymer_run]
    show ((StrideIter.run (Shape.size ns) _).map _).length = _
    rw [hdone, run_done, size_eq_zero_of_mem ns hz]
    rfl
  · have hall : ∀ d ∈ ns, 0 < d := by
      intro d hd
      rcases Nat.eq_zero_or_pos d with h0 | h0
      · exact absurd (h0 ▸ hd) hz
      · exact h0
    rw [polymer_elems t ns m hall, List.length_map, List.length_range']

lemma getD_map_range {β : Type} [Inhabited β] (n : Nat) (f : Nat → β) (i : Nat)
    (h : i < n) :
    ((List.range' 0 n).map f).getD i default = f i := by
  rw [List.getD_eq_get?, List.get?_map, List.get?_range' 0 1 h]
  show (some (f (0 + 1 * i))).getD default = f i
  rw [Option.getD_some, Nat.one_mul, Nat.zero_add]

/-- Claim C1: for every tensor `t`, target shape `ns` and mapping `m`
satisfying the polymer preconditions, `t.polymer ns m` has shape `ns` and,
at every coordinate tuple `c` valid for `ns`, holds the source element at
coordinates `[c[m[0]], ..., c[m[k-1]]]`; in particular, with mapping
`[2, 0]` from shape `[2, 3]` to `[3, 4, 2]` and `t[i, j] = i + 10 * j`,
the result at `[j, k, i]` is `i + 10 * j` for every
`i < 2`, `j < 3`, `k < 4`. -/
theorem claim_C1 :
    (∀ {α : Type} [Inhabited α] (t : Tensor α) (ns m c : List Nat),
      t.Inv → m.length = t.shape.length →
      (∀ i, i < m.length →
        m.getD i 0 < ns.length ∧ t.shape.getD i 0 = ns.getD (m.getD i 0) 0) →
      c.length = ns.length →
      (∀ j, j < ns.length → c.getD j 0 < ns.getD j 0) →
      (t.polymer ns m).shape = ns ∧
      (t.polymer ns m).very_slow_get c =
        t.very_slow_get (m.map (fun i => c.getD i 0))) ∧
    ((testTensor.polymer [3, 4, 2] [2, 0]).shape = [3, 4, 2] ∧
      (∀ i, i < 2 → ∀ j, j < 3 →
        testTensor.very_slow_get [i, j] = i + 10 * j) ∧
      (∀ i, i < 2 → ∀ j, j < 3 → ∀ k, k < 4 →
        (testTensor.polymer [3, 4, 2] [2, 0]).very_slow_get [j, k, i] =
          i + 10 * j)) := by
  constructor
  · intro α inst t ns m c _hInv _hmlen hmb hclen hcv
    refine ⟨rfl, ?_⟩
    have hall : ∀ d ∈ ns, 0 < d := by
      intro d hd
      obtain ⟨⟨j, hj⟩, hget⟩ := List.mem_iff_get.mp hd
      have h1 := hcv j hj
      have h2 : ns.getD j 0 = d := by
        rw [List.get_eq_getElem] at hget
        rw [List.getD_eq_getElem ns 0 hj]
        exact hget
      omega
    have hidx : Shape.index ns c < Shape.size ns := index_lt_size ns c hclen hcv
    show (t.polymer ns m).elems.getD (Shape.index (t.polymer ns m).shape c)
      default = _
    have hshape : (t.polymer ns m).shape = ns := rfl
    rw [hshape, polymer_elems t ns m hall, getD_map_range _ _ _ hidx,
      digitDot_index ns c _ hclen hcv]
    have hb : ∀ p ∈ m.zip (Shape.strides t.shape),
        p.1 < (List.replicate ns.length 0).length := by
      intro p hp
      rw [List.length_replicate]
      obtain ⟨hp1, _⟩ := List.mem_zip hp
      obtain ⟨⟨i, hi⟩, hget⟩ := List.mem_iff_get.mp hp1
      have hlt := (hmb i hi).1
      rw [List.get_eq_getElem] at hget
      rw [List.getD_eq_getElem m 0 hi, hget] at hlt
      exact hlt
    have hlen2 : c.length = (List.replicate ns.length 0).length := by
      rw [List.length_replicate]
      exact hclen
    have hdot : dotProd c (accStrides ns.length (m.zip (Shape.strides t.shape))) =
        Shape.index t.shape (m.map (fun i => c.getD i 0)) := by
      unfold accStrides
      rw [acc_dot (m.zip (Shape.strides t.shape)) (List.replicate ns.length 0) c
          hb hlen2,
        dotProd_replicate_zero, sumTerms_zip c m (Shape.strides t.shape),
        dotProd_strides, Nat.zero_add]
    rw [hdot]
    rfl
  · exact ⟨rfl, by decide, by decide⟩

theorem claim_C1_witness :
    (testTensor.polymer [3, 4, 2] [2, 0]).shape = [3, 4, 2] ∧
    (testTensor.polymer [3, 4, 2] [2, 0]).very_slow_get [1, 2, 0] =
      testTensor.very_slow_get [0, 1] := by
  have h := claim_C1.1 testTensor [3, 4, 2] [2, 0] [1, 2, 0]
    (show testTensor.elems.length = Shape.size testTensor.shape by decide)
    (by decide) (by decide) (by decide) (by decide)
  exact ⟨h.1, h.2⟩

/-! ## Lemmas: the tensor length invariant -/

lemma foldl_set_length {α : Type} (l : List Nat) (f : Nat → Nat) (u : α) :
    ∀ es : List α, (l.foldl (fun es idx => es.set (f idx) u) es).length =
      es.length := by
  induction l with
  | nil => intro es; rfl
  | cons a l ih =>
    intro es
    show (l.foldl _ (es.set (f a) u)).length = _
    rw [ih, List.length_set]

/-- Claim C5: every operation of the public interface that produces a
tensor (`constant`, `polymer`, `reshape_join`, `scalar`, `diagonal`, the
elementwise gates, the axis folds, `tensor_add_variable` and
`tensor_get_value`) returns a tensor satisfying
`elems.len() == shape.size()`. -/
theorem claim_C5 {α : Type} [Inhabited α] :
    (∀ (sh : List Nat) (e : α), (Tensor.constant sh e).Inv) ∧
    (∀ (t : Tensor α) (ns m : List Nat), (t.polymer ns m).Inv) ∧
    (∀ (t : Tensor α) (count : Nat), t.Inv → (t.reshape_join count).Inv) ∧
    (∀ (lift : Bool → α) (b : Bool), (scalar lift b).Inv) ∧
    (∀ (zero unit : α) (dim : Nat), (diagonal zero unit dim).Inv) ∧
    (∀ (g : α → α) (t : Tensor α), t.Inv → (tensor_not g t).Inv) ∧
    (∀ (g : α → α → α) (t1 t2 r : Tensor α), t1.Inv → t2.Inv →
      tensor_or g t1 t2 = some r → r.Inv) ∧
    (∀ (g : α → α → α) (t1 t2 r : Tensor α), t1.Inv → t2.Inv →
      tensor_and g t1 t2 = some r → r.Inv) ∧
    (∀ (g : α → α → α) (t1 t2 r : Tensor α), t1.Inv → t2.Inv →
      tensor_xor g t1 t2 = some r → r.Inv) ∧
    (∀ (g : α → α → α) (t1 t2 r : Tensor α), t1.Inv → t2.Inv →
      tensor_equ g t1 t2 = some r → r.Inv) ∧
    (∀ (g : α → α → α) (t1 t2 r : Tensor α), t1.Inv → t2.Inv →
      tensor_imp g t1 t2 = some r → r.Inv) ∧
    (∀ (g : List α → α) (t r : Tensor α), tensor_all g t = some r → r.Inv) ∧
    (∀ (g : List α → α) (t r : Tensor α), tensor_any g t = some r → r.Inv) ∧
    (∀ (g : List α → α) (t r : Tensor α), tensor_sum g t = some r → r.Inv) ∧
    (∀ (sh : List Nat) (n : Nat), (tensor_add_variable sh n).1.Inv) ∧
    (∀ (v : α → Bool) (t : Tensor α), t.Inv → (tensor_get_value v t).Inv) := by
  have hbin : ∀ (g : α → α → α) (t1 t2 r : Tensor α), t1.Inv → t2.Inv →
      (if t1.shape = t2.shape then
        some (Tensor.mk t1.shape (List.zipWith g t1.elems t2.elems))
      else none) = some r → r.Inv := by
    intro g t1 t2 r h1 h2 hr
    by_cases hsh : t1.shape = t2.shape
    · rw [if_pos hsh] at hr
      cases hr
      show (List.zipWith g t1.elems t2.elems).length = Shape.size t1.shape
      rw [List.length_zipWith, h1, h2, hsh, min_self]
    · rw [if_neg hsh] at hr
      cases hr
  have hfold : ∀ (g : List α → α) (t r : Tensor α),
      (match t.shape with
        | [] => none
        | head :: tail =>
          some (Tensor.mk tail ((List.range (Shape.size tail)).map
            (fun i => g ((t.elems.drop (i * head)).take head))))) = some r →
      r.Inv := by
    intro g t r hr
    cases hsh : t.shape with
    | nil => rw [hsh] at hr; cases hr
    | cons head tail =>
      rw [hsh] at hr
      cases hr
      show ((List.range (Shape.size tail)).map _).length = Shape.size tail
      rw [List.length_map, List.length_range]
  refine ⟨?_, ?_, ?_, ?_, ?_, ?_, hbin, hbin, hbin, hbin, hbin, hfold, hfold, hfold,
    ?_, ?_⟩
  · intro sh e
    show (List.replicate (Shape.size sh) e).length = Shape.size sh
    exact List.length_replicate _ _
  · intro t ns m
    exact polymer_length t ns m
  · intro t count hInv
    show t.elems.length =
      Shape.size (Shape.size (t.shape.take count) :: t.shape.drop count)
    rw [size_cons, ← size_append, List.take_append_drop]
    exact hInv
  · intro lift b
    show (List.replicate (Shape.size []) (lift b)).length = Shape.size []
    exact List.length_replicate _ _
  · intro zero unit dim
    show ((List.range dim).foldl _
      (List.replicate (Shape.size [dim, dim]) zero)).length = Shape.size [dim, dim]
    rw [foldl_set_length (List.range dim) (fun idx => idx * (dim + 1)) unit,
      List.length_replicate]
  · intro g t hInv
    show (t.elems.map g).length = Shape.size t.shape
    rw [List.length_map]
    exact hInv
  · intro sh n
    show ((List.range (Shape.size sh)).map _).length = Shape.size sh
    rw [List.length_map, List.length_range]
  · intro v t hInv
    show (t.elems.map v).length = Shape.size t.shape
    rw [List.length_map]
    exact hInv

theorem claim_C5_witness :
    ((Tensor.mk [2] [5, 6] : Tensor Nat).reshape_join 1).Inv ∧
    (Tensor.mk [2] [12, 14] : Tensor Nat).Inv ∧
    (Tensor.mk ([] : List Nat) [11] : Tensor Nat).Inv ∧
    (tensor_not (fun x : Nat => x + 1) (Tensor.mk [2] [5, 6])).Inv ∧
    (tensor_get_value (fun x : Nat => x == 5) (Tensor.mk [2] [5, 6])).Inv := by
  obtain ⟨_hconst, _hpoly, hresh, _hscal, _hdiag, hnot, hor, _hand, _hxor, _hequ,
    _himp, hall, _hany, _hsum, _hvar, hval⟩ := claim_C5 (α := Nat)
  refine ⟨?_, ?_, ?_, ?_, ?_⟩
  · exact hresh (Tensor.mk [2] [5, 6]) 1 rfl
  · exact hor (fun x y => x + y) (Tensor.mk [2] [5, 6]) (Tensor.mk [2] [7, 8])
      (Tensor.mk [2] [12, 14]) rfl rfl rfl
  · exact hall (fun l => l.foldl (fun a b => a + b) 0) (Tensor.mk [2] [5, 6])
      (Tensor.mk [] [11]) rfl
  · exact hnot (fun x => x + 1) (Tensor.mk [2] [5, 6]) rfl
  · exact hval (fun x => x == 5) (Tensor.mk [2] [5, 6]) rfl

/-! ## Lemmas: clause submission -/

lemma foldl_bool_add_clause {α : Type} (f : Nat → List α) (l : List Nat) :
    ∀ st : List (List α),
      l.foldl (fun st2 i => bool_add_clause st2 (f i)) st = st ++ l.map f := by
  induction l with
  | nil => intro st; simp
  | cons a l ih =>
    intro st
    show l.foldl _ (bool_add_clause st (f a)) = _
    rw [ih]
    show (st ++ [f a]) ++ l.map f = st ++ (f a :: l.map f)
    simp

/-- Claim C10: `tensor_add_clause` with an empty slice submits exactly one
empty clause; with a non-empty slice of equal-shaped tensors of size 0 it
submits no clauses; and otherwise it submits exactly `shape.size()`
clauses, the `i`-th holding each tensor's element at linear position `i`
in the order the tensors were given. -/
theorem claim_C10 {α : Type} [Inhabited α] (st : List (List α)) :
    tensor_add_clause st ([] : List (Tensor α)) = some (st ++ [[]]) ∧
    (∀ (t0 : Tensor α) (rest : List (Tensor α)),
      (∀ t ∈ rest, t.shape = t0.shape) → Shape.size t0.shape = 0 →
      tensor_add_clause st (t0 :: rest) = some st) ∧
    (∀ (t0 : Tensor α) (rest : List (Tensor α)),
      (∀ t ∈ rest, t.shape = t0.shape) →
      tensor_add_clause st (t0 :: rest) =
        some (st ++ (List.range (Shape.size t0.shape)).map
          (fun i => (t0 :: rest).map (fun t => t.elems.getD i default)))) := by
  have hall : ∀ (t0 : Tensor α) (rest : List (Tensor α)),
      (∀ t ∈ rest, t.shape = t0.shape) →
      rest.all (fun t => t.shape == t0.shape) = true := by
    intro t0 rest hsh
    exact List.all_eq_true.mpr (fun t ht => beq_iff_eq.mpr (hsh t ht))
  refine ⟨rfl, ?_, ?_⟩
  · intro t0 rest hsh hsz
    show (if rest.all (fun t => t.shape == t0.shape) then
        if Shape.size t0.shape = 0 then some st
        else some ((List.range (Shape.size t0.shape)).foldl
          (fun st2 i =>
            bool_add_clause st2 ((t0 :: rest).map (fun t => t.elems.getD i default)))
          st)
      else none) = some st
    rw [if_pos (hall t0 rest hsh), if_pos hsz]
  · intro t0 rest hsh
    show (if rest.all (fun t => t.shape == t0.shape) then
        if Shape.size t0.shape = 0 then some st
        else some ((List.range (Shape.size t0.shape)).foldl
          (fun st2 i =>
            bool_add_clause st2 ((t0 :: rest).map (fun t => t.elems.getD i default)))
          st)
      else none) = _
    rw [if_pos (hall t0 rest hsh)]
    by_cases hsz : Shape.size t0.shape = 0
    · rw [if_pos hsz, hsz]
      show some st = some (st ++ (List.range 0).map _)
      simp
    · rw [if_neg hsz,
        foldl_bool_add_clause
          (fun i => (t0 :: rest).map (fun t => t.elems.getD i default))
          (List.range (Shape.size t0.shape)) st]

theorem claim_C10_witness :
    tensor_add_clause ([[9]] : List (List Nat))
        [Tensor.mk [2] [5, 6], Tensor.mk [2] [7, 8]] =
      some [[9], [5, 7], [6, 8]] ∧
    tensor_add_clause ([[9]] : List (List Nat)) [Tensor.mk [0] []] =
      some [[9]] := by
  constructor
  · have h := (claim_C10 (α := Nat) [[9]]).2.2 (Tensor.mk [2] [5, 6])
      [Tensor.mk [2] [7, 8]] (by decide)
    exact h.trans (by decide)
  · exact (claim_C10 (α := Nat) [[9]]).2.1 (Tensor.mk [0] []) [] (by simp) (by decide)

end Uasat
